import Mathlib

/-!
Shallow embedding of the AnujanTennathur/Djikstra-s-Shortest-Path repository
(source files: array.2.py containing Array and Graph, and hash_map.2.py
containing HashMap, ListStack and the Dijkstra driver program).

Conventions of the embedding:
* Python numbers (floats used for weights, load factors and distances) are
  modelled by the exact rationals; the quantities the claims touch are small
  exact values for which Python float arithmetic coincides with the rational
  results.
* Python exceptions are modelled by an explicit error type: an operation that
  can raise returns Except PyError or Option.
* The LinkedList collaborator (datastructures/linked_list.py, imported but not
  part of the given sources) is modelled from the spec, section 6, as a Lean
  List with append at the end, remove-by-value of the first matching element
  (extract), in-order iteration, length and clear.
-/

namespace DS

/-- Python exception kinds raised by the modelled code paths. -/
inductive PyError where
  | typeError
  | valueError
  | indexError
  | keyError
  | attributeError
  deriving DecidableEq, Repr

/-- The error of a fallible result, when there is one. -/
def errorOf {α : Type} : Except PyError α → Option PyError
  | .error e => some e
  | .ok _ => none

/-! ### Prime search

sympy.nextprime(n) returns the smallest prime strictly greater than n.
We implement it as a bounded linear search; by Bertrand's postulate the next
prime after n is at most 2 * n + 2, so fuel n + 2 starting at n + 1 always
suffices, and we prove the characterisation below. -/

/-- Boolean primality test by trial division over 2..n-1. -/
def isPrimeB (n : ℕ) : Bool :=
  decide (2 ≤ n) && (List.range (n - 2)).all (fun i => n % (i + 2) != 0)

/-- Linear search for the first prime at or above the candidate c, with fuel. -/
def nextprimeSearch : ℕ → ℕ → ℕ
  | 0, c => c
  | fuel + 1, c => if isPrimeB c then c else nextprimeSearch fuel (c + 1)

/-- Model of sympy.nextprime: the smallest prime strictly greater than n. -/
def nextprime (n : ℕ) : ℕ := nextprimeSearch (n + 2) (n + 1)

/-! ### Array (array.2.py, class Array)

The backing numpy array is modelled as a Lean list items (its length is the
length of the numpy array), together with the bookkeeping fields
_physical_size and _logical_size, which the source stores as plain Python
integers (they can be negative, because [x] * size is empty for any
size <= 0 while the stored sizes keep the raw value). -/

structure ArrayDS (α : Type) where
  items : List α
  physical_size : ℤ
  logical_size : ℤ
  default_item_value : α
  deriving DecidableEq, Repr

namespace ArrayDS

/-- Models Array.__init__(size, default_item_value): the numpy backing array
is [default] * size, which is empty for size <= 0. -/
def init (size : ℤ) (default_item_value : α) : ArrayDS α :=
  { items := List.replicate size.toNat default_item_value
    physical_size := size
    logical_size := size
    default_item_value := default_item_value }

/-- Models Array.append: grows by doubling when logical equals physical size,
copies the old backing array, then writes the new item at index
len(self._items); a numpy write out of bounds raises IndexError. -/
def append (a : ArrayDS α) (data : α) : Except PyError (ArrayDS α) :=
  let new_physical_size : ℤ :=
    if a.logical_size = a.physical_size then a.physical_size * 2
    else a.physical_size
  if a.items.length < new_physical_size.toNat then
    .ok { items := a.items ++ [data] ++
            List.replicate (new_physical_size.toNat - a.items.length - 1)
              a.default_item_value
          physical_size := new_physical_size
          logical_size := a.logical_size + 1
          default_item_value := a.default_item_value }
  else
    .error .indexError

end ArrayDS

/-! ### HashMap (hash_map.2.py, class HashMap)

The bucket Array of LinkedList of Pair is modelled as a list of chains, each
chain a list of key-value pairs in chain order.  The pluggable hash function
is a stored function of (key, capacity); the Python default hash of strings
or tuples is process-randomised, so theorems quantify over any function whose
result lies below the capacity (the default computes a value mod capacity).
LinkedList.extract removes the first element equal to the given value, per
the spec of the ordered-sequence collaborator. -/

structure HashMap (κ ν : Type) where
  buckets : List (List (κ × ν))
  hash_function : κ → ℕ → ℕ
  count : ℕ
  load_factor_threshold : ℚ

namespace HashMap

variable {κ ν : Type} [DecidableEq κ] [DecidableEq ν]

/-- Models the capacity property: len(self._buckets). -/
def capacity (m : HashMap κ ν) : ℕ := m.buckets.length

/-- Models the load_factor property: self._count / self.capacity. -/
def load_factor (m : HashMap κ ν) : ℚ := (m.count : ℚ) / (m.capacity : ℚ)

/-- Internal table builder: the effect of HashMap.__init__ for a callable
hash function and a nonnegative capacity (buckets filled with empty chains,
count 0); line 80 of the source assigns the class default 0.6 to
self._load_factor_threshold, ignoring the constructor argument. -/
def mkTable (c : ℕ) (f : κ → ℕ → ℕ) : HashMap κ ν :=
  { buckets := List.replicate c []
    hash_function := f
    count := 0
    load_factor_threshold := 3 / 5 }

/-- Models HashMap.__init__(capacity, hash_function, load_factor_threshold).
A non-callable (or None) hash function argument is modelled as none and
raises TypeError.  No other validation is performed: a negative capacity
produces an empty backing array because [default] * size is empty for
size <= 0, and the threshold argument is ignored entirely (the class default
3/5 is stored). -/
def init (cap : ℤ) (hash_function : Option (κ → ℕ → ℕ))
    (load_factor_threshold : ℚ) : Except PyError (HashMap κ ν) :=
  match hash_function with
  | none => .error .typeError
  | some f => .ok (mkTable cap.toNat f)

/-- Models HashMap.__getitem__ up to the raised KeyError, which becomes
none: hash the key, scan the chain of that bucket for the first pair with
this key, return its value. -/
def getItem (m : HashMap κ ν) (key : κ) : Option ν :=
  ((m.buckets.getD (m.hash_function key m.capacity) []).find?
    (fun p => p.1 == key)).map (·.2)

/-- Models HashMap.__contains__: scan the chain of the hashed bucket. -/
def containsKey (m : HashMap κ ν) (key : κ) : Bool :=
  ((m.buckets.getD (m.hash_function key m.capacity) []).find?
    (fun p => p.1 == key)).isSome

/-- Models HashMap.items(): pairs in bucket-major, chain order. -/
def items (m : HashMap κ ν) : List (κ × ν) := m.buckets.flatten

/-- Models HashMap.keys() (and __iter__): keys in bucket-major, chain
order. -/
def keys (m : HashMap κ ν) : List κ := m.items.map Prod.fst

/-- Models HashMap.__len__: returns self._count. -/
def len (m : HashMap κ ν) : ℕ := m.count

/-- Models lines 166-175 of HashMap.__setitem__, the part after the
load-factor check: hash the key; if a pair with this key is in the chain,
extract it and append the new pair, else append the new pair and increment
the count. -/
def setAfterCheck (m : HashMap κ ν) (key : κ) (value : ν) : HashMap κ ν :=
  match (m.buckets.getD (m.hash_function key m.capacity) []).find?
      (fun p => p.1 == key) with
  | some p =>
    { m with
      buckets := m.buckets.set (m.hash_function key m.capacity)
        ((m.buckets.getD (m.hash_function key m.capacity) []).erase p
          ++ [(key, value)]) }
  | none =>
    { m with
      buckets := m.buckets.set (m.hash_function key m.capacity)
        ((m.buckets.getD (m.hash_function key m.capacity) [])
          ++ [(key, value)])
      count := m.count + 1 }

/-- Models HashMap._new_bucket_capacity:
nextprime(int(self._count / self._load_factor_threshold)); int truncates
toward zero, which for the nonnegative quotient is the floor. -/
def new_bucket_capacity (m : HashMap κ ν) : ℕ :=
  nextprime (Int.toNat ⌊(m.count : ℚ) / m.load_factor_threshold⌋)

/-- Models HashMap.__setitem__.  The load-factor check happens first and,
when it fires, resize_and_rehash builds a fresh table of the new capacity
with the same hash function and re-inserts every item through __setitem__
again (self is then replaced by the new table), after which the original
call proceeds on the rehashed table.  The re-insertion makes __setitem__
recursive, so the model takes fuel; under the well-formedness invariant a
nested resize never fires during a rehash sized by _new_bucket_capacity, and
fuel 2 is proved sufficient below. -/
def setItemF : ℕ → HashMap κ ν → κ → ν → Option (HashMap κ ν)
  | 0, _, _, _ => none
  | fuel + 1, m, key, value =>
    let pre : Option (HashMap κ ν) :=
      if m.load_factor > m.load_factor_threshold then
        List.foldlM (fun acc p => setItemF fuel acc p.1 p.2)
          (mkTable (new_bucket_capacity m) m.hash_function) m.items
      else some m
    match pre with
    | none => none
    | some m1 => some (setAfterCheck m1 key value)
  termination_by structural fuel => fuel

/-- Models HashMap.resize_and_rehash(new_table_size, new_hash_function):
build a fresh HashMap of the new size (its constructor again stores the
default threshold) and insert every item of the old table through
__setitem__ (hence the fuel). -/
def resize_and_rehash (fuel : ℕ) (m : HashMap κ ν) (new_table_size : ℕ)
    (new_hash_function : κ → ℕ → ℕ) : Option (HashMap κ ν) :=
  List.foldlM (fun acc p => setItemF fuel acc p.1 p.2)
    (mkTable new_table_size new_hash_function) m.items

/-- Models HashMap.__delitem__: hash the key, extract the first matching
pair from the chain, raise KeyError when absent.  The source never
decrements self._count here. -/
def delItem (m : HashMap κ ν) (key : κ) : Except PyError (HashMap κ ν) :=
  match (m.buckets.getD (m.hash_function key m.capacity) []).find?
      (fun p => p.1 == key) with
  | some p =>
    .ok { m with
          buckets := m.buckets.set (m.hash_function key m.capacity)
            ((m.buckets.getD (m.hash_function key m.capacity) []).erase p) }
  | none => .error .keyError

/-- Well-formedness of a table state, true of every state the class
produces: positive capacity, a hash function that maps into the bucket
range, every pair sitting in the bucket its key hashes to, globally distinct
keys, a count at least the number of stored pairs (deletions leave the count
behind, so equality can fail), and the stored threshold equal to the class
default 0.6 which the constructor always assigns. -/
structure WF (m : HashMap κ ν) : Prop where
  cap_pos : 0 < m.capacity
  hash_valid : ∀ k c, 0 < c → m.hash_function k c < c
  bucket_correct : ∀ i, i < m.capacity → ∀ p ∈ m.buckets.getD i [],
    m.hash_function p.1 m.capacity = i
  keys_nodup : (m.items.map Prod.fst).Nodup
  count_ge : m.items.length ≤ m.count
  threshold_eq : m.load_factor_threshold = 3 / 5

end HashMap

namespace HashMap

variable {κ ν : Type} [DecidableEq κ] [DecidableEq ν]

/-- Resulting table of a triggered resize written as a plain fold of the
post-check insertion: under the well-formedness invariant no nested resize
can fire while re-inserting into a fresh table sized by
_new_bucket_capacity, so the fuelled resize_and_rehash at the __setitem__
call site produces exactly this table (proved below). -/
def rehashed (m : HashMap κ ν) : HashMap κ ν :=
  m.items.foldl (fun acc p => setAfterCheck acc p.1 p.2)
    (mkTable (new_bucket_capacity m) m.hash_function)

/-- Definition following the words of the spec, for comparison with the
code: the smallest prime greater than or equal to count / threshold,
equivalently the least prime at or above ceil(count / threshold). -/
def spec_new_capacity (m : HashMap κ ν) : ℕ :=
  nextprimeSearch (Int.toNat ⌈(m.count : ℚ) / m.load_factor_threshold⌉ + 2)
    (Int.toNat ⌈(m.count : ℚ) / m.load_factor_threshold⌉)

/-- Models the effect, on the value store, of mutating in place a value
object reached through the reference held by its stored Pair (the source
mutates vertex objects owned by the graph's HashMap without any HashMap
operation running): the pair keeps its chain position, the count and every
other pair are untouched. -/
def updateValueAt (m : HashMap κ ν) (key : κ) (f : ν → ν) : HashMap κ ν :=
  { m with
    buckets := m.buckets.set (m.hash_function key m.capacity)
      ((m.buckets.getD (m.hash_function key m.capacity) []).map
        (fun p => if p.1 == key then (p.1, f p.2) else p)) }

end HashMap

/-! ### Graph (array.2.py, class Graph with _Vertex and _Edge)

Vertex data and edge labels are strings in the modelled scenarios.  A source
_Edge holds a reference to its destination _Vertex object; the claims only
ever read vertex_data through that reference, so the model stores the
destination's data.  The graph owns a HashMap from vertex data to vertex,
created by HashMap() with default capacity 7 and the default (per-process
randomised) string hash, which theorems pass in as a parameter. -/

structure Edge where
  destination_vertex : String
  edge_data : String
  weight : ℚ
  deriving DecidableEq, Repr

structure Vertex where
  vertex_data : String
  edges : List Edge
  deriving DecidableEq, Repr

structure Graph where
  vertices : HashMap String Vertex

namespace Graph

/-- Models Graph.__init__: self._vertices = HashMap(), capacity 7, given
hash function. -/
def emptyGraph (f : String → ℕ → ℕ) : Graph := ⟨HashMap.mkTable 7 f⟩

/-- Models Graph.add_vertex: self._vertices[vertex_data] =
_Vertex(vertex_data), a plain __setitem__ storing a freshly constructed
vertex whose edge list is empty (an existing vertex under the same data is
overwritten).  The option threads the __setitem__ fuel. -/
def add_vertex (g : Graph) (vertex_data : String) : Option Graph :=
  (HashMap.setItemF 2 g.vertices vertex_data ⟨vertex_data, []⟩).map (⟨·⟩)

/-- Models Graph.add_edge: auto-create either endpoint vertex when absent
(each creation is a __setitem__), then append
_Edge(vertex2, edge_data, weight) to vertex1's edge list by mutating the
vertex object stored in the map. -/
def add_edge (g : Graph) (vertex1_data vertex2_data : String)
    (edge_data : String) (weight : ℚ) : Option Graph := do
  let m1 ←
    if HashMap.containsKey g.vertices vertex1_data then some g.vertices
    else HashMap.setItemF 2 g.vertices vertex1_data ⟨vertex1_data, []⟩
  let m2 ←
    if HashMap.containsKey m1 vertex2_data then some m1
    else HashMap.setItemF 2 m1 vertex2_data ⟨vertex2_data, []⟩
  some ⟨HashMap.updateValueAt m2 vertex1_data (fun vx =>
    { vx with edges := vx.edges ++ [⟨vertex2_data, edge_data, weight⟩] })⟩

/-- Models Graph.edges_from: the vertex's edges in list order when the
vertex exists, ValueError otherwise. -/
def edges_from (g : Graph) (vertex_data : String) :
    Except PyError (List Edge) :=
  match HashMap.getItem g.vertices vertex_data with
  | some vx => .ok vx.edges
  | none => .error .valueError

/-- Models the attribute access vertex.data performed by Graph.remove_edge
on each element yielded by iterating self._vertices: HashMap.__iter__
yields keys, which are the vertex-data strings, and a str has no attribute
named data, so the access raises AttributeError. -/
def strDataAttr (s : String) : Except PyError Vertex :=
  .error .attributeError

/-- Models Graph.remove_edge, lines 542-558 of array.2.py.  The scan
`for vertex in self._vertices` iterates the map's keys and immediately
evaluates vertex.data, which raises AttributeError on the first key (the
loop body can therefore never assign vertex1 or vertex2); when the graph
has no vertices the loop body never runs and the subsequent
`vertex1 is None` check raises ValueError("Vertex not found"). -/
def remove_edge (g : Graph) (vertex1_data vertex2_data : String)
    (edge_data : String) : Except PyError Graph := do
  let _ ← (HashMap.keys g.vertices).forM (fun k => do
    let _ ← strDataAttr k
    pure ())
  .error .valueError

end Graph

/-! ### Dijkstra (hash_map.2.py, class Dijkstra)

The engine's per-run state consists of the distance table (vertex data to
distance from origin, sentinel -1 for unreached) and the predecessor table
(vertex data to previous vertex on the best known route, None initially).
Both are HashMaps whose key set is exactly the graph's vertex set, fully
initialised in __init__ and find_shortest_paths before any lookup, so they
are modelled as total maps over the vertex type.  The enumeration order of
self._airports.values() comes from the underlying HashMap and is
hash-dependent, so the model takes the vertex enumeration as a list
parameter.  Edge lists are per-vertex adjacency lists of
(destination vertex data, weight) in LinkedList (insertion) order; the edge
label plays no role in find_shortest_paths or route reconstruction. -/

section DijkstraModel

variable {V : Type} [DecidableEq V]

/-- Models the selection scan inside the while loop of
Dijkstra.find_shortest_paths (lines 859-865): the first vertex of the
working array with distance above the -1 sentinel, replaced whenever a
strictly smaller distance is found later in the array. -/
def minimum_distance_vertex (dist : V → ℚ) (ws : List V) : Option V :=
  ws.foldl (fun acc v =>
    if dist v > -1 then
      match acc with
      | none => some v
      | some m => if dist v < dist m then some v else acc
    else acc) none

/-- Models the relaxation loop of Dijkstra.find_shortest_paths (lines
874-879): for each outgoing route of the selected vertex, path is the
selected vertex's current distance plus the route weight; when the
destination is unreached (-1) or path is smaller, its distance and
predecessor are updated. -/
def relax_routes (adj : V → List (V × ℚ)) (u : V)
    (st : (V → ℚ) × (V → Option V)) : (V → ℚ) × (V → Option V) :=
  (adj u).foldl (fun st e =>
    let path := st.1 u + e.2
    if st.1 e.1 = -1 ∨ path < st.1 e.1 then
      (fun v => if v = e.1 then path else st.1 v,
       fun v => if v = e.1 then some u else st.2 v)
    else st) st

/-- Models the while loop of Dijkstra.find_shortest_paths (lines 858-879).
Each iteration selects the minimum-distance eligible vertex, deletes it
from the working array (deleting nothing when the selection is None, since
comparing an airport with None is never true), breaks when the selection is
None, and relaxes the selected vertex's routes.  The source loop runs until
the working array is empty; since every non-breaking iteration removes the
selected vertex, at most the initial array length iterations happen, which
the fuel argument mirrors (a fuel-monotonicity lemma below shows larger
fuel computes the same result). -/
def dijkstra_loop (adj : V → List (V × ℚ)) :
    ℕ → List V → (V → ℚ) × (V → Option V) → (V → ℚ) × (V → Option V)
  | 0, _, st => st
  | fuel + 1, ws, st =>
    if ws.isEmpty then st
    else
      match minimum_distance_vertex st.1 ws with
      | none => st
      | some u => dijkstra_loop adj fuel (ws.erase u) (relax_routes adj u st)

/-- Models Dijkstra.find_shortest_paths(origin): distances initialised to 0
for the origin and the -1 sentinel elsewhere, predecessors to None (as left
by __init__ for a fresh engine, with self._route_connections[origin]
reassigned to None on line 848), then the relaxation loop over the working
array holding every vertex. -/
def find_shortest_paths (verts : List V) (adj : V → List (V × ℚ))
    (origin : V) : (V → ℚ) × (V → Option V) :=
  dijkstra_loop adj verts.length verts
    (fun v => if v = origin then 0 else -1, fun _ => none)

/-- Outcome of one origin-to-destination query of Dijkstra.run: either the
printed "no complete route" report, or the reconstructed route in
origin-to-destination order with the destination's total distance. -/
inductive Outcome (V : Type) where
  | noRoute
  | route (path : List V) (total : ℚ)
  deriving DecidableEq

/-- Models the reconstruction loop of Dijkstra.run (lines 765-773): walk
back from the destination pushing each vertex, stop with "no route" when a
predecessor link is None, succeed on reaching the origin; popping the stack
then yields origin :: acc.  The accumulator holds the pushed vertices most
recent first, exactly the stack's pop order.  The outer none marks fuel
exhaustion, which a run of the source would spend looping; the fuel used
below (the vertex count) is enough for every reachable destination because
predecessor chains repeat no vertex. -/
def reconstruct_route (pred : V → Option V) (origin : V) :
    ℕ → V → List V → Option (Option (List V))
  | fuel, vertex, acc =>
    if vertex = origin then some (some (origin :: acc))
    else
      match fuel with
      | 0 => none
      | fuel + 1 =>
        match pred vertex with
        | none => some none
        | some p => reconstruct_route pred origin fuel p (vertex :: acc)

/-- Models one origin-to-destination query of Dijkstra.run (lines 748-788,
excluding the interactive prompts): run find_shortest_paths from the
origin, then reconstruct backwards from the destination; report no route,
or the route plus the destination's distance from the origin (the source
rounds the printed mileage to two decimals; the model reports the exact
total). -/
def run (verts : List V) (adj : V → List (V × ℚ))
    (origin destination : V) : Option (Outcome V) :=
  match reconstruct_route (find_shortest_paths verts adj origin).2 origin
      verts.length destination [] with
  | none => none
  | some none => some .noRoute
  | some (some path) =>
    some (.route path ((find_shortest_paths verts adj origin).1 destination))

/-- Reachability along the adjacency structure: the reflexive-transitive
closure of the directed edges.  No path from a to b means
not (Reaches adj a b). -/
inductive Reaches (adj : V → List (V × ℚ)) (origin : V) : V → Prop where
  | refl : Reaches adj origin origin
  | step {u v : V} {w : ℚ} (hr : Reaches adj origin u)
      (he : (v, w) ∈ adj u) : Reaches adj origin v

end DijkstraModel

/-! ### Concrete instances used by the claims -/

/-- Vertex type of the three-vertex claim graph. -/
inductive V3 where
  | A
  | B
  | C
  deriving DecidableEq, Fintype, Repr

/-- Adjacency of the claim graph: A to B weight 1, B to C weight 2, A to C
weight 10, with each vertex's edge list in insertion order. -/
def adj3 : V3 → List (V3 × ℚ)
  | .A => [(.B, 1), (.C, 10)]
  | .B => [(.C, 2)]
  | .C => []

/-- Empty adjacency: a graph with no edges at all. -/
def adjNone : V3 → List (V3 × ℚ) := fun _ => []

/-- Concrete valid hash function on natural-number keys. -/
def hmod : ℕ → ℕ → ℕ := fun k c => k % c

/-- Concrete valid hash function on string keys (every key to bucket 0). -/
def hzero : String → ℕ → ℕ := fun _ _ => 0

/-- Concrete well-formed table: capacity 4 holding keys 0, 1 and 2, so the
load factor 3/4 exceeds the threshold 3/5; count / threshold equals the
prime 5 exactly. -/
def mTrig : HashMap ℕ ℤ :=
  { buckets := [[(0, 10)], [(1, 11)], [(2, 12)], []]
    hash_function := hmod
    count := 3
    load_factor_threshold := 3 / 5 }

/-- Concrete graph for the add_vertex witness: vertices A (with one
outgoing edge to B) and B, both chained in bucket 0 under hzero. -/
def gW : Graph :=
  ⟨{ buckets := [[("A", ⟨"A", [⟨"B", "x", 5⟩]⟩), ("B", ⟨"B", []⟩)],
      [], [], [], [], [], []]
     hash_function := hzero
     count := 2
     load_factor_threshold := 3 / 5 }⟩


/-! ## Theorems -/

theorem isPrimeB_iff (n : ℕ) : isPrimeB n = true ↔ n.Prime := by
  rw [Nat.prime_def_lt]
  simp only [isPrimeB, Bool.and_eq_true, List.all_eq_true, List.mem_range,
    decide_eq_true_eq, bne_iff_ne, ne_eq]
  constructor
  · rintro ⟨h2, hd⟩
    refine ⟨h2, fun m hm hdvd => ?_⟩
    by_contra hm1
    have hm2 : 2 ≤ m := by
      rcases Nat.lt_or_ge m 2 with h | h
      · interval_cases m
        · exact absurd (Nat.eq_zero_of_zero_dvd hdvd) (by omega)
        · exact absurd rfl hm1
      · exact h
    have := hd (m - 2) (by omega)
    rw [show m - 2 + 2 = m by omega] at this
    exact this (Nat.dvd_iff_mod_eq_zero.mp hdvd)
  · rintro ⟨h2, hd⟩
    refine ⟨h2, fun i hi => ?_⟩
    intro hmod
    have hdvd : (i + 2) ∣ n := Nat.dvd_iff_mod_eq_zero.mpr hmod
    have := hd (i + 2) (by omega) hdvd
    omega

theorem nextprimeSearch_spec (fuel c : ℕ)
    (hex : ∃ p, p.Prime ∧ c ≤ p ∧ p < c + fuel) :
    (nextprimeSearch fuel c).Prime ∧ c ≤ nextprimeSearch fuel c ∧
      ∀ q, q.Prime → c ≤ q → nextprimeSearch fuel c ≤ q := by
  induction fuel generalizing c with
  | zero =>
    obtain ⟨p, _, _, hlt⟩ := hex
    omega
  | succ fuel ih =>
    rw [nextprimeSearch]
    by_cases hc : isPrimeB c
    · rw [if_pos hc]
      exact ⟨(isPrimeB_iff c).mp hc, le_refl c, fun q _ hq => hq⟩
    · rw [if_neg hc]
      have hcnp : ¬ c.Prime := fun h => hc ((isPrimeB_iff c).mpr h)
      obtain ⟨p, hp, hcp, hlt⟩ := hex
      have hne : p ≠ c := fun h => hcnp (h ▸ hp)
      obtain ⟨hp1, hp2, hp3⟩ := ih (c + 1) ⟨p, hp, by omega, by omega⟩
      exact ⟨hp1, by omega, fun q hq hcq => by
        rcases Nat.eq_or_lt_of_le hcq with h | h
        · exact absurd (h ▸ hq) hcnp
        · exact hp3 q hq (by omega)⟩

theorem nextprime_spec (n : ℕ) :
    (nextprime n).Prime ∧ n < nextprime n ∧
      ∀ q, q.Prime → n < q → nextprime n ≤ q := by
  have hex : ∃ p, p.Prime ∧ n + 1 ≤ p ∧ p < n + 1 + (n + 2) := by
    rcases Nat.eq_zero_or_pos n with rfl | hn
    · exact ⟨2, Nat.prime_two, by omega, by omega⟩
    · obtain ⟨p, hp, hlt, hle⟩ := Nat.bertrand n (by omega)
      exact ⟨p, hp, by omega, by omega⟩
  obtain ⟨h1, h2, h3⟩ := nextprimeSearch_spec (n + 2) (n + 1) hex
  simp only [nextprime]
  exact ⟨h1, by omega, fun q hq hlt => h3 q hq (by omega)⟩

/-- C10: appending to an Array constructed with size 0 (the default
constructor) raises IndexError instead of storing the item: growth doubles
the physical capacity and doubling 0 yields 0, so the appended element never
has room. -/
theorem array_append_size_zero_indexError {α : Type} (d x : α) :
    (ArrayDS.init 0 d).append x = .error .indexError := by
  rfl


attribute [local semireducible] Rat.add Rat.mul Rat.sub Rat.inv

namespace HashMap

variable {κ ν : Type} [DecidableEq κ] [DecidableEq ν]

theorem perm_cons_erase_of_mem {α : Type} [BEq α] [LawfulBEq α] {a : α}
    {l : List α} (h : a ∈ l) : l.Perm (a :: l.erase a) := by
  obtain ⟨l₁, l₂, _, he1, he2⟩ := List.exists_erase_eq h
  rw [he2, he1]
  exact List.perm_middle

theorem find?_key_erase_of_ne (l : List (κ × ν)) (q : κ × ν) (k : κ)
    (hq : q.1 ≠ k) :
    (l.erase q).find? (fun p => p.1 == k) = l.find? (fun p => p.1 == k) := by
  induction l with
  | nil => simp
  | cons a l ih =>
    rw [List.erase_cons]
    by_cases ha : a = q
    · rw [if_pos (by simp [ha]), List.find?_cons_of_neg _ (by simp [ha, hq])]
    · rw [if_neg (by simp [ha])]
      by_cases hk : a.1 = k
      · rw [List.find?_cons_of_pos _ (by simp [hk]),
          List.find?_cons_of_pos _ (by simp [hk])]
      · rw [List.find?_cons_of_neg _ (by simp [hk]),
          List.find?_cons_of_neg _ (by simp [hk]), ih]

theorem find?_key_erase_self (l : List (κ × ν)) (q : κ × ν)
    (hnd : (l.map Prod.fst).Nodup) (hq : q ∈ l) :
    (l.erase q).find? (fun p => p.1 == q.1) = none := by
  rw [List.find?_eq_none]
  intro x hx
  simp only [beq_iff_eq]
  intro hxk
  have hnd2 : (q.1 :: (l.erase q).map Prod.fst).Nodup := by
    have hperm := (perm_cons_erase_of_mem hq).map Prod.fst
    exact hnd.perm (by simpa using hperm)
  exact (List.nodup_cons.mp hnd2).1 (hxk ▸ List.mem_map_of_mem Prod.fst hx)

theorem find?_key_of_mem (l : List (κ × ν)) (k : κ) (v : ν)
    (hnd : (l.map Prod.fst).Nodup) (hm : (k, v) ∈ l) :
    l.find? (fun p => p.1 == k) = some (k, v) := by
  induction l with
  | nil => simp at hm
  | cons a l ih =>
    rcases List.mem_cons.mp hm with rfl | hm2
    · exact List.find?_cons_of_pos _ (by simp)
    · have hk : a.1 ≠ k := by
        intro h
        exact (List.nodup_cons.mp hnd).1
          (h ▸ List.mem_map_of_mem Prod.fst hm2)
      rw [List.find?_cons_of_neg _ (by simp [hk])]
      exact ih (List.nodup_cons.mp hnd).2 hm2

theorem chain_keys_nodup (m : HashMap κ ν)
    (hnd : (m.items.map Prod.fst).Nodup) (i : ℕ) :
    ((m.buckets.getD i []).map Prod.fst).Nodup := by
  by_cases hi : i < m.buckets.length
  · have hmem : m.buckets.getD i [] ∈ m.buckets := by
      rw [List.getD_eq_getElem?_getD, List.getElem?_eq_getElem hi]
      exact List.getElem_mem hi
    exact hnd.sublist ((List.sublist_flatten_of_mem hmem).map Prod.fst)
  · rw [List.getD_eq_getElem?_getD, List.getElem?_eq_none (by omega)]
    simp

theorem chain_mem_items (m : HashMap κ ν) {i : ℕ} {p : κ × ν}
    (hp : p ∈ m.buckets.getD i []) : p ∈ m.items := by
  by_cases hi : i < m.buckets.length
  · have hmem : m.buckets.getD i [] ∈ m.buckets := by
      rw [List.getD_eq_getElem?_getD, List.getElem?_eq_getElem hi]
      exact List.getElem_mem hi
    exact List.mem_flatten.mpr ⟨_, hmem, hp⟩
  · rw [List.getD_eq_getElem?_getD, List.getElem?_eq_none (by omega)] at hp
    simp at hp

theorem getItem_eq_some_iff (m : HashMap κ ν) (hwf : m.WF) (k : κ) (v : ν) :
    m.getItem k = some v ↔ (k, v) ∈ m.items := by
  constructor
  · intro h
    rw [getItem, Option.map_eq_some'] at h
    obtain ⟨p, hp, hp2⟩ := h
    have hk : p.1 = k := by simpa using List.find?_some hp
    have hpm := List.mem_of_find?_eq_some hp
    have : p = (k, v) := by
      cases p
      simp only [Prod.mk.injEq]
      exact ⟨hk, hp2⟩
    exact this ▸ chain_mem_items m hpm
  · intro h
    obtain ⟨l, hl, hpl⟩ := List.mem_flatten.mp h
    obtain ⟨i, hi, hil⟩ := List.mem_iff_getElem.mp hl
    have hgd : m.buckets.getD i [] = l := by
      rw [List.getD_eq_getElem?_getD, List.getElem?_eq_getElem hi, hil]
      rfl
    have hhash : m.hash_function k m.capacity = i := by
      have := hwf.bucket_correct i hi (k, v) (hgd ▸ hpl)
      simpa using this
    rw [getItem, hhash, hgd,
      find?_key_of_mem l k v (hgd ▸ chain_keys_nodup m hwf.keys_nodup i) hpl]
    rfl

theorem getItem_eq_none_iff (m : HashMap κ ν) (hwf : m.WF) (k : κ) :
    m.getItem k = none ↔ k ∉ m.items.map Prod.fst := by
  constructor
  · intro h hk
    obtain ⟨p, hp, hpk⟩ := List.mem_map.mp hk
    have : m.getItem k = some p.2 := by
      refine (getItem_eq_some_iff m hwf k p.2).mpr ?_
      cases p
      cases hpk
      exact hp
    rw [this] at h
    cases h
  · intro h
    rcases hcase : m.getItem k with _ | v
    · rfl
    · have := (getItem_eq_some_iff m hwf k v).mp hcase
      exact absurd (List.mem_map_of_mem Prod.fst this) h

end HashMap

namespace HashMap

variable {κ ν : Type} [DecidableEq κ] [DecidableEq ν]

theorem setAfterCheck_capacity (m : HashMap κ ν) (k : κ) (v : ν) :
    (m.setAfterCheck k v).capacity = m.capacity := by
  unfold setAfterCheck
  split <;> simp [capacity]

theorem setAfterCheck_hash (m : HashMap κ ν) (k : κ) (v : ν) :
    (m.setAfterCheck k v).hash_function = m.hash_function := by
  unfold setAfterCheck
  split <;> rfl

theorem setAfterCheck_threshold (m : HashMap κ ν) (k : κ) (v : ν) :
    (m.setAfterCheck k v).load_factor_threshold = m.load_factor_threshold := by
  unfold setAfterCheck
  split <;> rfl

theorem setAfterCheck_count (m : HashMap κ ν) (k : κ) (v : ν) :
    (m.setAfterCheck k v).count =
      if m.getItem k = none then m.count + 1 else m.count := by
  unfold setAfterCheck getItem
  cases hf : (m.buckets.getD (m.hash_function k m.capacity) []).find?
      (fun p => p.1 == k) <;>
    simp [hf]

theorem items_decomp (m : HashMap κ ν) (i : ℕ) (hi : i < m.buckets.length) :
    m.items = (m.buckets.take i).flatten ++ m.buckets.getD i []
      ++ (m.buckets.drop (i + 1)).flatten := by
  have hgd : m.buckets.getD i [] = m.buckets[i] := by
    rw [List.getD_eq_getElem?_getD, List.getElem?_eq_getElem hi]
    rfl
  show m.buckets.flatten = _
  conv_lhs => rw [← List.take_append_drop i m.buckets,
    ← List.getElem_cons_drop m.buckets i hi]
  rw [List.flatten_append, List.flatten_cons, hgd, List.append_assoc]

theorem items_setBucket (m : HashMap κ ν) (i : ℕ) (hi : i < m.buckets.length)
    (c : List (κ × ν)) :
    (m.buckets.set i c).flatten = (m.buckets.take i).flatten ++ c
      ++ (m.buckets.drop (i + 1)).flatten := by
  rw [List.set_eq_take_cons_drop _ hi]
  simp [List.flatten_append]

theorem setAfterCheck_keys_perm (m : HashMap κ ν) (hwf : m.WF) (k : κ)
    (v : ν) :
    ((m.setAfterCheck k v).items.map Prod.fst).Perm
      (if m.getItem k = none then k :: m.items.map Prod.fst
       else m.items.map Prod.fst) := by
  have hi : m.hash_function k m.capacity < m.buckets.length :=
    hwf.hash_valid k m.capacity hwf.cap_pos
  have hdec := items_decomp m (m.hash_function k m.capacity) hi
  unfold setAfterCheck
  cases hfind : (m.buckets.getD (m.hash_function k m.capacity) []).find?
      (fun p => p.1 == k) with
  | none =>
    have hnone : m.getItem k = none := by
      rw [getItem, hfind]
      rfl
    rw [if_pos hnone]
    show ((m.buckets.set _ _).flatten.map Prod.fst).Perm _
    rw [items_setBucket m _ hi, hdec]
    simp only [List.map_append]
    have hshape :
        (m.buckets.take (m.hash_function k m.capacity)).flatten.map Prod.fst
          ++ ((m.buckets.getD (m.hash_function k m.capacity) []).map Prod.fst
            ++ [(k, v)].map Prod.fst)
          ++ (m.buckets.drop (m.hash_function k m.capacity + 1)).flatten.map
            Prod.fst
        = ((m.buckets.take (m.hash_function k m.capacity)).flatten.map
              Prod.fst
            ++ (m.buckets.getD (m.hash_function k m.capacity) []).map
              Prod.fst)
          ++ (k :: (m.buckets.drop (m.hash_function k m.capacity + 1)).flatten.map
            Prod.fst) := by
      simp [List.append_assoc]
    rw [hshape]
    exact List.perm_middle
  | some q =>
    have hsome : m.getItem k = some q.2 := by
      rw [getItem, hfind]
      rfl
    rw [if_neg (by simp [hsome])]
    have hq1 : q.1 = k := by simpa using List.find?_some hfind
    have hqm : q ∈ m.buckets.getD (m.hash_function k m.capacity) [] :=
      List.mem_of_find?_eq_some hfind
    show ((m.buckets.set _ _).flatten.map Prod.fst).Perm _
    rw [items_setBucket m _ hi, hdec]
    simp only [List.map_append]
    have hchain :
        (((m.buckets.getD (m.hash_function k m.capacity) []).erase q).map
            Prod.fst ++ [(k, v)].map Prod.fst).Perm
          ((m.buckets.getD (m.hash_function k m.capacity) []).map Prod.fst) := by
      have h1 : (((m.buckets.getD (m.hash_function k m.capacity) []).erase
          q).map Prod.fst ++ [(k, v)].map Prod.fst).Perm
          (k :: ((m.buckets.getD (m.hash_function k m.capacity) []).erase
            q).map Prod.fst) := by
        simpa using (@List.perm_middle κ k
          (((m.buckets.getD (m.hash_function k m.capacity) []).erase
            q).map Prod.fst) [])
      refine h1.trans ?_
      have h2 := ((perm_cons_erase_of_mem hqm).map Prod.fst).symm
      simp only [List.map_cons] at h2
      rw [hq1] at h2
      exact h2
    exact (hchain.append_left _).append_right _

end HashMap

theorem getD_set_self {α : Type} (l : List α) (i : ℕ) (hi : i < l.length)
    (a d : α) : (l.set i a).getD i d = a := by
  rw [List.getD_eq_getElem?_getD, List.getElem?_set_self (by simpa using hi)]
  rfl

theorem getD_set_ne {α : Type} (l : List α) (i j : ℕ) (hij : i ≠ j)
    (a d : α) : (l.set i a).getD j d = l.getD j d := by
  rw [List.getD_eq_getElem?_getD, List.getElem?_set_ne hij,
    ← List.getD_eq_getElem?_getD]

namespace HashMap

variable {κ ν : Type} [DecidableEq κ] [DecidableEq ν]

theorem setAfterCheck_buckets (m : HashMap κ ν) (k : κ) (v : ν) :
    (m.setAfterCheck k v).buckets =
      m.buckets.set (m.hash_function k m.capacity)
        (match (m.buckets.getD (m.hash_function k m.capacity) []).find?
            (fun p => p.1 == k) with
         | some p =>
            (m.buckets.getD (m.hash_function k m.capacity) []).erase p
              ++ [(k, v)]
         | none =>
            m.buckets.getD (m.hash_function k m.capacity) [] ++ [(k, v)]) := by
  unfold setAfterCheck
  split <;> rfl

theorem setAfterCheck_WF (m : HashMap κ ν) (hwf : m.WF) (k : κ) (v : ν) :
    (m.setAfterCheck k v).WF := by
  have hi : m.hash_function k m.capacity < m.buckets.length :=
    hwf.hash_valid k m.capacity hwf.cap_pos
  have hkp := setAfterCheck_keys_perm m hwf k v
  have hcap := setAfterCheck_capacity m k v
  have hhash := setAfterCheck_hash m k v
  have hthr := setAfterCheck_threshold m k v
  have hcnt := setAfterCheck_count m k v
  constructor
  · rw [hcap]
    exact hwf.cap_pos
  · rw [hhash]
    exact hwf.hash_valid
  · intro j hj p hp
    rw [hcap] at hj
    rw [hhash, hcap]
    rw [setAfterCheck_buckets] at hp
    by_cases hji : j = m.hash_function k m.capacity
    · subst hji
      rw [getD_set_self _ _ hi] at hp
      rcases hfind : (m.buckets.getD (m.hash_function k m.capacity) []).find?
          (fun p => p.1 == k) with _ | q
      · rw [hfind] at hp
        rcases List.mem_append.mp hp with h | h
        · exact hwf.bucket_correct _ hj p h
        · have : p = (k, v) := by simpa using h
          rw [this]
      · rw [hfind] at hp
        rcases List.mem_append.mp hp with h | h
        · exact hwf.bucket_correct _ hj p
            ((List.erase_sublist q _).subset h)
        · have : p = (k, v) := by simpa using h
          rw [this]
    · rw [getD_set_ne _ _ _ (fun h => hji h.symm)] at hp
      exact hwf.bucket_correct _ hj p hp
  · rcases hno : m.getItem k with _ | w
    · rw [hno] at hkp
      simp only [if_pos rfl] at hkp
      have hnodup : (k :: m.items.map Prod.fst).Nodup :=
        List.nodup_cons.mpr
          ⟨(getItem_eq_none_iff m hwf k).mp hno, hwf.keys_nodup⟩
      exact hnodup.perm hkp.symm
    · rw [hno, if_neg (by simp)] at hkp
      exact hwf.keys_nodup.perm hkp.symm
  · rcases hno : m.getItem k with _ | w
    · rw [hno, if_pos rfl] at hkp hcnt
      have hlen := hkp.length_eq
      simp only [List.length_map, List.length_cons] at hlen
      have := hwf.count_ge
      omega
    · rw [hno, if_neg (by simp)] at hkp hcnt
      have hlen := hkp.length_eq
      simp only [List.length_map] at hlen
      have := hwf.count_ge
      omega
  · rw [hthr]
    exact hwf.threshold_eq

theorem getItem_setAfterCheck (m : HashMap κ ν) (hwf : m.WF) (k kq : κ)
    (v : ν) :
    (m.setAfterCheck k v).getItem kq =
      if kq = k then some v else m.getItem kq := by
  have hi : m.hash_function k m.capacity < m.buckets.length :=
    hwf.hash_valid k m.capacity hwf.cap_pos
  have hcnd := chain_keys_nodup m hwf.keys_nodup
    (m.hash_function k m.capacity)
  rw [getItem, setAfterCheck_hash, setAfterCheck_capacity,
    setAfterCheck_buckets]
  by_cases hkq : kq = k
  · subst hkq
    rw [if_pos rfl, getD_set_self _ _ hi]
    rcases hfind : (m.buckets.getD (m.hash_function kq m.capacity) []).find?
        (fun p => p.1 == kq) with _ | q
    · rw [hfind, List.find?_append, hfind]
      simp
    · have hq1 : q.1 = kq := by simpa using List.find?_some hfind
      have hqm := List.mem_of_find?_eq_some hfind
      rw [hfind, List.find?_append]
      rw [show (fun (p : κ × ν) => p.1 == kq) = (fun p => p.1 == q.1) by
        rw [hq1]]
      rw [find?_key_erase_self _ q hcnd hqm]
      simp [hq1]
  · rw [if_neg hkq]
    by_cases hbq : m.hash_function kq m.capacity = m.hash_function k m.capacity
    · rw [hbq, getD_set_self _ _ hi, getItem, hbq]
      rcases hfind : (m.buckets.getD (m.hash_function k m.capacity) []).find?
          (fun p => p.1 == k) with _ | q
      · rw [hfind, List.find?_append]
        have hnkq : ¬ k = kq := fun h => hkq h.symm
        have : [(k, v)].find? (fun p => p.1 == kq) = none := by simp [hnkq]
        rw [this]
        simp
      · have hq1 : q.1 = k := by simpa using List.find?_some hfind
        have hnkq : ¬ k = kq := fun h => hkq h.symm
        rw [hfind, List.find?_append,
          find?_key_erase_of_ne _ q kq (by rw [hq1]; exact fun h => hkq h.symm)]
        have : [(k, v)].find? (fun p => p.1 == kq) = none := by simp [hnkq]
        rw [this]
        simp
    · rw [getD_set_ne _ _ _ (fun h => hbq h.symm), getItem]

theorem getItem_mkTable (c : ℕ) (f : κ → ℕ → ℕ) (k : κ) :
    (mkTable c f : HashMap κ ν).getItem k = none := by
  have hb : (mkTable c f : HashMap κ ν).buckets = List.replicate c [] := rfl
  rw [getItem, hb, List.getD_eq_getElem?_getD, List.getElem?_replicate]
  split <;> simp

theorem mkTable_WF (c : ℕ) (hc : 0 < c) (f : κ → ℕ → ℕ)
    (hf : ∀ k cp, 0 < cp → f k cp < cp) : (mkTable c f : HashMap κ ν).WF := by
  constructor
  · simpa [mkTable, capacity] using hc
  · exact hf
  · intro j hj p hp
    rw [show (mkTable c f : HashMap κ ν).buckets = List.replicate c [] from
      rfl, List.getD_eq_getElem?_getD, List.getElem?_replicate] at hp
    split at hp <;> simp at hp
  · show ((List.replicate c ([] : List (κ × ν))).flatten.map Prod.fst).Nodup
    rw [List.flatten_replicate_nil]
    exact List.nodup_nil
  · show (List.replicate c ([] : List (κ × ν))).flatten.length ≤ 0
    rw [List.flatten_replicate_nil]
    exact Nat.le_refl 0
  · rfl

end HashMap

namespace HashMap

variable {κ ν : Type} [DecidableEq κ] [DecidableEq ν]

theorem load_factor_gt_iff (m : HashMap κ ν) (hwf : m.WF) :
    (m.load_factor > m.load_factor_threshold) ↔
      3 * m.capacity < 5 * m.count := by
  rw [load_factor, hwf.threshold_eq]
  have hcap : (0 : ℚ) < (m.capacity : ℚ) := by exact_mod_cast hwf.cap_pos
  rw [gt_iff_lt, div_lt_div_iff (by norm_num) hcap]
  constructor
  · intro h
    have h2 : ((3 * m.capacity : ℕ) : ℚ) < ((5 * m.count : ℕ) : ℚ) := by
      push_cast
      linarith
    exact_mod_cast h2
  · intro h
    have h2 : ((3 * m.capacity : ℕ) : ℚ) < ((5 * m.count : ℕ) : ℚ) := by
      exact_mod_cast h
    push_cast at h2
    linarith

theorem new_bucket_capacity_eq (m : HashMap κ ν) (hwf : m.WF) :
    m.new_bucket_capacity = nextprime (5 * m.count / 3) := by
  rw [new_bucket_capacity, hwf.threshold_eq]
  congr 1
  have hq : (m.count : ℚ) / (3 / 5) = (((5 * m.count : ℕ) : ℤ) : ℚ) /
      ((3 : ℕ) : ℚ) := by
    push_cast
    ring
  rw [hq, Rat.floor_intCast_div_natCast]
  rw [show ((5 * m.count : ℕ) : ℤ) / ((3 : ℕ) : ℤ) =
    ((5 * m.count / 3 : ℕ) : ℤ) from (Int.ofNat_div _ _).symm]
  exact Int.toNat_natCast _

theorem find?_eq_none_of_not_memkeys (L : List (κ × ν)) (k : κ)
    (h : k ∉ L.map Prod.fst) : L.find? (fun p => p.1 == k) = none := by
  rw [List.find?_eq_none]
  intro x hx hbeq
  exact h (by
    simp only [beq_iff_eq] at hbeq
    exact hbeq ▸ List.mem_map_of_mem Prod.fst hx)

theorem insert_list_spec (L : List (κ × ν)) :
    ∀ (b : HashMap κ ν), b.WF →
    (∀ p ∈ L, b.getItem p.1 = none) →
    (L.map Prod.fst).Nodup →
    5 * (b.count + L.length) ≤ 3 * b.capacity + 5 →
    ∀ fuel : ℕ,
      List.foldlM (fun acc p => setItemF (fuel + 1) acc p.1 p.2) b L
        = some (L.foldl (fun acc p => acc.setAfterCheck p.1 p.2) b) ∧
      (L.foldl (fun acc p => acc.setAfterCheck p.1 p.2) b).WF ∧
      (L.foldl (fun acc p => acc.setAfterCheck p.1 p.2) b).capacity
        = b.capacity ∧
      (L.foldl (fun acc p => acc.setAfterCheck p.1 p.2) b).hash_function
        = b.hash_function ∧
      (L.foldl (fun acc p => acc.setAfterCheck p.1 p.2) b).count
        = b.count + L.length ∧
      ∀ k, (L.foldl (fun acc p => acc.setAfterCheck p.1 p.2) b).getItem k =
        (match L.find? (fun p => p.1 == k) with
         | some p => some p.2
         | none => b.getItem k) := by
  induction L with
  | nil =>
    intro b hwf _ _ _ fuel
    refine ⟨rfl, hwf, rfl, rfl, rfl, fun k => rfl⟩
  | cons p rest ih =>
    intro b hwf habs hnd hcap fuel
    have hnotrig : ¬ (b.load_factor > b.load_factor_threshold) := by
      rw [load_factor_gt_iff b hwf]
      simp only [List.length_cons] at hcap
      omega
    have hstep : setItemF (fuel + 1) b p.1 p.2
        = some (b.setAfterCheck p.1 p.2) := by
      simp only [setItemF, if_neg hnotrig]
    have hpnone : b.getItem p.1 = none := habs p (List.mem_cons_self p rest)
    have hwf2 := setAfterCheck_WF b hwf p.1 p.2
    have hcnt2 : (b.setAfterCheck p.1 p.2).count = b.count + 1 := by
      rw [setAfterCheck_count, if_pos hpnone]
    have hlook : ∀ kq, (b.setAfterCheck p.1 p.2).getItem kq =
        if kq = p.1 then some p.2 else b.getItem kq :=
      fun kq => getItem_setAfterCheck b hwf p.1 kq p.2
    have habs2 : ∀ q ∈ rest, (b.setAfterCheck p.1 p.2).getItem q.1 = none := by
      intro q hq
      rw [hlook q.1, if_neg (by
        intro h
        exact (List.nodup_cons.mp hnd).1
          (h ▸ List.mem_map_of_mem Prod.fst hq))]
      exact habs q (List.mem_cons_of_mem p hq)
    have hcap2 : 5 * ((b.setAfterCheck p.1 p.2).count + rest.length)
        ≤ 3 * (b.setAfterCheck p.1 p.2).capacity + 5 := by
      rw [hcnt2, setAfterCheck_capacity]
      simp only [List.length_cons] at hcap
      omega
    obtain ⟨hfold, hwfr, hcapr, hhashr, hcntr, hlookr⟩ :=
      ih (b.setAfterCheck p.1 p.2) hwf2 habs2 (List.nodup_cons.mp hnd).2
        hcap2 fuel
    refine ⟨?_, ?_, ?_, ?_, ?_, ?_⟩
    · simp only [List.foldlM_cons, hstep, Option.bind_eq_bind,
        Option.some_bind, List.foldl_cons]
      exact hfold
    · simpa only [List.foldl_cons] using hwfr
    · simp only [List.foldl_cons]
      rw [hcapr, setAfterCheck_capacity]
    · simp only [List.foldl_cons]
      rw [hhashr, setAfterCheck_hash]
    · simp only [List.foldl_cons]
      rw [hcntr, hcnt2, List.length_cons]
      omega
    · intro k
      simp only [List.foldl_cons]
      rw [hlookr k]
      by_cases hk : p.1 = k
      · rw [List.find?_cons_of_pos _ (by simpa using hk)]
        have hrest : rest.find? (fun q => q.1 == k) = none := by
          refine find?_eq_none_of_not_memkeys rest k ?_
          intro hmem
          exact (List.nodup_cons.mp hnd).1 (hk ▸ hmem)
        rw [hrest, hlook k, if_pos hk.symm]
      · rw [List.find?_cons_of_neg _ (by simpa using hk)]
        rcases hfr : rest.find? (fun q => q.1 == k) with _ | q
        · rw [hfr, hlook k, if_neg (fun h => hk h.symm)]
        · rw [hfr]

end HashMap

namespace HashMap

variable {κ ν : Type} [DecidableEq κ] [DecidableEq ν]

theorem mkTable_capacity (c : ℕ) (f : κ → ℕ → ℕ) :
    (mkTable c f : HashMap κ ν).capacity = c := by
  simp [mkTable, capacity]

theorem items_find?_eq (m : HashMap κ ν) (hwf : m.WF) (k : κ) :
    (match m.items.find? (fun p => p.1 == k) with
     | some q => some q.2
     | none => (none : Option ν)) = m.getItem k := by
  rcases hf : m.items.find? (fun p => p.1 == k) with _ | q
  · rw [hf]
    symm
    refine (getItem_eq_none_iff m hwf k).mpr ?_
    intro hmem
    obtain ⟨x, hx, hxk⟩ := List.mem_map.mp hmem
    have := List.find?_eq_none.mp hf x hx
    simp [hxk] at this
  · rw [hf]
    have hq1 : q.1 = k := by simpa using List.find?_some hf
    have hqm := List.mem_of_find?_eq_some hf
    symm
    refine (getItem_eq_some_iff m hwf k q.2).mpr ?_
    have : q = (k, q.2) := by
      cases q
      cases hq1
      rfl
    exact this ▸ hqm

theorem resize_spec (m : HashMap κ ν) (hwf : m.WF) (fuel : ℕ) :
    resize_and_rehash (fuel + 1) m m.new_bucket_capacity m.hash_function
      = some m.rehashed ∧
    m.rehashed.WF ∧
    m.rehashed.capacity = m.new_bucket_capacity ∧
    m.rehashed.count = m.items.length ∧
    ∀ k, m.rehashed.getItem k = m.getItem k := by
  have hP : 0 < m.new_bucket_capacity := (nextprime_spec _).1.pos
  have hbwf : (mkTable m.new_bucket_capacity m.hash_function :
      HashMap κ ν).WF := mkTable_WF m.new_bucket_capacity hP m.hash_function
    hwf.hash_valid
  have habs : ∀ p ∈ m.items,
      (mkTable m.new_bucket_capacity m.hash_function : HashMap κ ν).getItem
        p.1 = none := fun p _ => getItem_mkTable _ _ _
  have hcap : 5 * ((mkTable m.new_bucket_capacity m.hash_function :
        HashMap κ ν).count + m.items.length)
      ≤ 3 * (mkTable m.new_bucket_capacity m.hash_function :
        HashMap κ ν).capacity + 5 := by
    have h1 := hwf.count_ge
    have h2 : 5 * m.count / 3 < m.new_bucket_capacity := by
      rw [new_bucket_capacity_eq m hwf]
      exact (nextprime_spec _).2.1
    rw [mkTable_capacity]
    show 5 * (0 + m.items.length) ≤ 3 * m.new_bucket_capacity + 5
    omega
  obtain ⟨hfold, hwfr, hcapr, hhashr, hcntr, hlookr⟩ :=
    insert_list_spec m.items
      (mkTable m.new_bucket_capacity m.hash_function) hbwf habs
      hwf.keys_nodup hcap fuel
  have hre : m.rehashed = m.items.foldl
      (fun acc p => acc.setAfterCheck p.1 p.2)
      (mkTable m.new_bucket_capacity m.hash_function) := rfl
  refine ⟨hfold, hwfr, hcapr.trans (mkTable_capacity _ _), ?_, ?_⟩
  · rw [hre, hcntr]
    simp [mkTable]
  · intro k
    rw [hre, hlookr k, ← items_find?_eq m hwf k]
    rcases hf : m.items.find? (fun p => p.1 == k) with _ | q
    · rw [hf]
      exact getItem_mkTable _ _ _
    · rw [hf]

theorem setItemF_succ (fuel : ℕ) (m : HashMap κ ν) (k : κ) (v : ν) :
    setItemF (fuel + 1) m k v =
      match (if m.load_factor > m.load_factor_threshold then
          List.foldlM (fun acc p => setItemF fuel acc p.1 p.2)
            (mkTable (new_bucket_capacity m) m.hash_function) m.items
        else some m) with
      | none => none
      | some m1 => some (setAfterCheck m1 k v) := rfl

theorem setItemF_eq (m : HashMap κ ν) (hwf : m.WF) (k : κ) (v : ν)
    (fuel : ℕ) :
    setItemF (fuel + 2) m k v = some
      ((if m.load_factor > m.load_factor_threshold then m.rehashed
        else m).setAfterCheck k v) := by
  have hres := (resize_spec m hwf fuel).1
  rw [resize_and_rehash] at hres
  rw [show fuel + 2 = (fuel + 1) + 1 from rfl, setItemF_succ]
  by_cases htrig : m.load_factor > m.load_factor_threshold
  · rw [if_pos htrig, if_pos htrig, hres]
  · rw [if_neg htrig, if_neg htrig]

theorem setItem_spec (m : HashMap κ ν) (hwf : m.WF) (k : κ) (v : ν)
    (fuel : ℕ) :
    ∃ m2, setItemF (fuel + 2) m k v = some m2 ∧ m2.WF ∧
      ∀ kq, m2.getItem kq = if kq = k then some v else m.getItem kq := by
  refine ⟨_, setItemF_eq m hwf k v fuel, ?_, ?_⟩
  · by_cases htrig : m.load_factor > m.load_factor_threshold
    · rw [if_pos htrig]
      exact setAfterCheck_WF _ (resize_spec m hwf 0).2.1 k v
    · rw [if_neg htrig]
      exact setAfterCheck_WF _ hwf k v
  · intro kq
    by_cases htrig : m.load_factor > m.load_factor_threshold
    · rw [if_pos htrig,
        getItem_setAfterCheck _ (resize_spec m hwf 0).2.1 k kq v,
        (resize_spec m hwf 0).2.2.2.2 kq]
    · rw [if_neg htrig, getItem_setAfterCheck _ hwf k kq v]

end HashMap

namespace HashMap

variable {κ ν : Type} [DecidableEq κ] [DecidableEq ν]

theorem mTrig_WF : mTrig.WF := by
  refine ⟨by decide, fun k c hc => Nat.mod_lt _ hc, ?_, by decide, by decide,
    rfl⟩
  decide

/-- C2: after every finite sequence of set and delete operations on a
HashMap, len() is claimed to equal the number of distinct keys present, with
a delete of a present key decreasing len() by one.  The code contradicts
this (and the count semantics its own load_factor and __len__ docstrings
rely on): __delitem__ extracts the pair but never decrements self._count.
Concretely, on a fresh HashMap(7), set key 1 then delete key 1: the map
retains no keys at all, yet len() still reports 1. -/
theorem claim_c2_delitem_count_unchanged :
    ((setItemF 2 (mkTable 7 hmod : HashMap ℕ ℤ) 1 10).bind
      (fun m1 => (delItem m1 1).toOption)).map (fun m2 => (m2.len, m2.keys))
      = some (1, []) := by
  decide

/-- C5, counterexample: starting from HashMap(4), insert keys 0, 1, 2 and
then the genuinely new key 3.  At the insertion the load factor 3/4 exceeds
the threshold 3/5, count / threshold equals exactly the prime 5, the spec
formula (smallest prime at or above count / threshold) gives 5, but the
code resizes to nextprime(int(count / threshold)) = nextprime(5) = 7. -/
theorem claim_c5_counterexample :
    ((do
        let a ← setItemF 2 (mkTable 4 hmod : HashMap ℕ ℤ) 0 10
        let b ← setItemF 2 a 1 11
        setItemF 2 b 2 12) : Option (HashMap ℕ ℤ)).map
      (fun m => (decide (m.load_factor > m.load_factor_threshold),
                 m.getItem 3,
                 spec_new_capacity m,
                 (setItemF 2 m 3 13).map capacity))
      = some (true, none, 5, some 7) ∧ (7 : ℕ) ≠ 5 := by
  constructor
  · decide
  · decide

/-- C5, amended: whenever set is about to insert a genuinely new key and
finds load_factor > threshold, the table is first rehashed into a new table
whose capacity is nextprime(int(count / threshold)), the smallest prime
strictly greater than the floor of count / threshold (when count / threshold
is exactly a prime integer p, that is the next prime after p, not p), and
only then is the new pair inserted. -/
theorem claim_c5_amended (m : HashMap κ ν) (hwf : m.WF) (k : κ) (v : ν)
    (htrig : m.load_factor > m.load_factor_threshold)
    (hnew : m.getItem k = none) (fuel : ℕ) :
    ∃ m2, setItemF (fuel + 2) m k v = some m2 ∧
      m2.capacity =
        nextprime (Int.toNat ⌊(m.count : ℚ) / m.load_factor_threshold⌋) ∧
      m2.getItem k = some v ∧
      ∀ kq, kq ≠ k → m2.getItem kq = m.getItem kq := by
  have hre := resize_spec m hwf 0
  refine ⟨_, setItemF_eq m hwf k v fuel, ?_, ?_, ?_⟩
  · rw [if_pos htrig, setAfterCheck_capacity, hre.2.2.1]
    rfl
  · rw [if_pos htrig, getItem_setAfterCheck _ hre.2.1 k k v, if_pos rfl]
  · intro kq hkq
    rw [if_pos htrig, getItem_setAfterCheck _ hre.2.1 k kq v, if_neg hkq,
      hre.2.2.2.2 kq]

theorem claim_c5_amended_witness :
    ∃ m2, setItemF 2 mTrig 3 13 = some m2 ∧
      m2.capacity =
        nextprime (Int.toNat ⌊(mTrig.count : ℚ) /
          mTrig.load_factor_threshold⌋) ∧
      m2.getItem 3 = some 13 ∧
      ∀ kq, kq ≠ 3 → m2.getItem kq = mTrig.getItem kq :=
  claim_c5_amended mTrig mTrig_WF 3 13 (by decide) (by decide) 0

/-- C6: a resize triggered by crossing the load-factor threshold (the call
resize_and_rehash(self._new_bucket_capacity(), self._hash_function) made by
__setitem__) preserves the full content: it completes without error, every
key reads back the same value afterwards, and no key is lost or added. -/
theorem claim_c6_rehash_preserves_content (m : HashMap κ ν) (hwf : m.WF)
    (htrig : m.load_factor > m.load_factor_threshold) (fuel : ℕ) :
    ∃ r, resize_and_rehash (fuel + 1) m m.new_bucket_capacity
        m.hash_function = some r ∧
      (∀ k, r.getItem k = m.getItem k) ∧
      ∀ k, (∃ v, (k, v) ∈ r.items) ↔ (∃ v, (k, v) ∈ m.items) := by
  have hre := resize_spec m hwf fuel
  refine ⟨m.rehashed, hre.1, hre.2.2.2.2, ?_⟩
  intro k
  constructor
  · rintro ⟨v, hv⟩
    have := (getItem_eq_some_iff _ hre.2.1 k v).mpr hv
    rw [hre.2.2.2.2 k] at this
    exact ⟨v, (getItem_eq_some_iff _ hwf k v).mp this⟩
  · rintro ⟨v, hv⟩
    have := (getItem_eq_some_iff _ hwf k v).mpr hv
    rw [← hre.2.2.2.2 k] at this
    exact ⟨v, (getItem_eq_some_iff _ hre.2.1 k v).mp this⟩

theorem claim_c6_witness :
    ∃ r, resize_and_rehash 1 mTrig mTrig.new_bucket_capacity
        mTrig.hash_function = some r ∧
      (∀ k, r.getItem k = mTrig.getItem k) ∧
      ∀ k, (∃ v, (k, v) ∈ r.items) ↔ (∃ v, (k, v) ∈ mTrig.items) :=
  claim_c6_rehash_preserves_content mTrig mTrig_WF (by decide) 0

/-- C7: the claim says constructing with a non-callable hash function, a
negative capacity, or an out-of-range load-factor threshold raises a
configuration error, and the constructor docstring promises ValueError for
the latter two; but the code only checks callability: HashMap(-1, f, 0.6)
and HashMap(7, f, 2.0) both construct successfully, while a None hash
function does raise TypeError. -/
theorem claim_c7_constructor_validation :
    (init (-1) (some hmod) (3 / 5) :
      Except PyError (HashMap ℕ ℤ)).isOk = true ∧
    (init 7 (some hmod) 2 : Except PyError (HashMap ℕ ℤ)).isOk = true ∧
    errorOf (init 7 none (3 / 5) : Except PyError (HashMap ℕ ℤ))
      = some .typeError := by
  refine ⟨rfl, rfl, rfl⟩

/-- C8: for every capacity and every load_factor_threshold argument t, the
constructor accepts t but stores the class default 0.6 (= 3/5):
HashMap.__init__ line 80 assigns HashMap.default_load_factor_threshold, so
the resize threshold cannot be configured at construction. -/
theorem claim_c8_threshold_ignored (cap : ℤ) (f : κ → ℕ → ℕ) (t : ℚ) :
    ∃ m, (init cap (some f) t : Except PyError (HashMap κ ν)) = .ok m ∧
      m.load_factor_threshold = 3 / 5 :=
  ⟨_, rfl, rfl⟩

end HashMap

namespace HashMap

variable {κ ν : Type} [DecidableEq κ] [DecidableEq ν]

theorem containsKey_eq_isSome (m : HashMap κ ν) (k : κ) :
    m.containsKey k = (m.getItem k).isSome := by
  rw [containsKey, getItem]
  cases (m.buckets.getD (m.hash_function k m.capacity) []).find?
    (fun p => p.1 == k) <;> rfl

theorem find?_map_key_preserving (l : List (κ × ν)) (k kq : κ) (f : ν → ν) :
    (l.map (fun p => if p.1 == k then (p.1, f p.2) else p)).find?
      (fun p => p.1 == kq)
    = (l.find? (fun p => p.1 == kq)).map
        (fun p => if p.1 == k then (p.1, f p.2) else p) := by
  rw [List.find?_map]
  have hcomp : ((fun (p : κ × ν) => p.1 == kq) ∘
      fun p => if p.1 == k then (p.1, f p.2) else p)
      = (fun p => p.1 == kq) := by
    funext p
    by_cases hpk : p.1 = k <;> simp [hpk]
  rw [hcomp]

theorem updateValueAt_buckets (m : HashMap κ ν) (k : κ) (f : ν → ν) :
    (m.updateValueAt k f).buckets =
      m.buckets.set (m.hash_function k m.capacity)
        ((m.buckets.getD (m.hash_function k m.capacity) []).map
          (fun p => if p.1 == k then (p.1, f p.2) else p)) := rfl

theorem updateValueAt_fields (m : HashMap κ ν) (k : κ) (f : ν → ν) :
    (m.updateValueAt k f).capacity = m.capacity ∧
    (m.updateValueAt k f).hash_function = m.hash_function ∧
    (m.updateValueAt k f).count = m.count ∧
    (m.updateValueAt k f).load_factor_threshold
      = m.load_factor_threshold := by
  refine ⟨?_, rfl, rfl, rfl⟩
  simp [updateValueAt, capacity]

theorem getItem_updateValueAt (m : HashMap κ ν) (hwf : m.WF) (k kq : κ)
    (f : ν → ν) :
    (m.updateValueAt k f).getItem kq =
      if kq = k then (m.getItem kq).map f else m.getItem kq := by
  have hi : m.hash_function k m.capacity < m.buckets.length :=
    hwf.hash_valid k m.capacity hwf.cap_pos
  rw [getItem, (updateValueAt_fields m k f).2.1,
    (updateValueAt_fields m k f).1, updateValueAt_buckets]
  by_cases hbq : m.hash_function kq m.capacity = m.hash_function k m.capacity
  · rw [hbq, getD_set_self _ _ hi, find?_map_key_preserving]
    rcases hf : (m.buckets.getD (m.hash_function k m.capacity) []).find?
        (fun p => p.1 == kq) with _ | q
    · rw [hf, getItem, hbq, hf]
      split <;> rfl
    · have hq1 : q.1 = kq := by simpa using List.find?_some hf
      rw [hf, getItem, hbq, hf]
      by_cases hkq : kq = k
      · rw [if_pos hkq]
        simp [hq1, hkq]
      · rw [if_neg hkq]
        simp [hq1, hkq]
  · rw [getD_set_ne _ _ _ (fun h => hbq h.symm)]
    have hkq : ¬ kq = k := by
      intro h
      exact hbq (h ▸ rfl)
    rw [if_neg hkq, getItem]

theorem updateValueAt_WF (m : HashMap κ ν) (hwf : m.WF) (k : κ)
    (f : ν → ν) : (m.updateValueAt k f).WF := by
  have hi : m.hash_function k m.capacity < m.buckets.length :=
    hwf.hash_valid k m.capacity hwf.cap_pos
  have hkeys : ∀ (l : List (κ × ν)),
      (l.map (fun p => if p.1 == k then (p.1, f p.2) else p)).map Prod.fst
        = l.map Prod.fst := by
    intro l
    rw [List.map_map]
    have hcomp : (Prod.fst ∘ fun (p : κ × ν) =>
        if p.1 == k then (p.1, f p.2) else p) = Prod.fst := by
      funext p
      by_cases hpk : p.1 = k <;> simp [hpk]
    rw [hcomp]
  have hitems : (m.updateValueAt k f).items.map Prod.fst
      = m.items.map Prod.fst := by
    show ((m.updateValueAt k f).buckets.flatten).map Prod.fst = _
    rw [updateValueAt_buckets, items_setBucket m _ hi]
    conv_rhs => rw [items_decomp m _ hi]
    simp only [List.map_append]
    rw [hkeys]
  constructor
  · rw [(updateValueAt_fields m k f).1]
    exact hwf.cap_pos
  · rw [(updateValueAt_fields m k f).2.1]
    exact hwf.hash_valid
  · intro j hj p hp
    rw [(updateValueAt_fields m k f).1] at hj
    rw [(updateValueAt_fields m k f).2.1, (updateValueAt_fields m k f).1]
    rw [updateValueAt_buckets] at hp
    by_cases hji : j = m.hash_function k m.capacity
    · subst hji
      rw [getD_set_self _ _ hi] at hp
      obtain ⟨q, hq, hqp⟩ := List.mem_map.mp hp
      have hbc := hwf.bucket_correct _ hj q hq
      rw [← hbc]
      congr 1
      rw [← hqp]
      by_cases hqk : q.1 = k <;> simp [hqk]
    · rw [getD_set_ne _ _ _ (fun h => hji h.symm)] at hp
      exact hwf.bucket_correct _ hj p hp
  · rw [hitems]
    exact hwf.keys_nodup
  · have hlen : (m.updateValueAt k f).items.length = m.items.length := by
      have h2 := congrArg List.length hitems
      simpa using h2
    rw [hlen, (updateValueAt_fields m k f).2.2.1]
    exact hwf.count_ge
  · rw [(updateValueAt_fields m k f).2.2.2]
    exact hwf.threshold_eq

end HashMap

namespace Graph

theorem remove_edge_attributeError (g : Graph)
    (hne : HashMap.keys g.vertices ≠ []) (v1 v2 e : String) :
    g.remove_edge v1 v2 e = .error .attributeError := by
  rw [remove_edge]
  rcases hk : HashMap.keys g.vertices with _ | ⟨k, rest⟩
  · exact absurd hk hne
  · rfl

theorem hzero_valid : ∀ (s : String) (c : ℕ), 0 < c → hzero s c < c :=
  fun _ _ hc => hc

/-- C9: for every vertex data d already present in a well-formed graph,
add_vertex(d) succeeds and replaces the stored vertex with a freshly
constructed one whose outgoing edge list is empty, discarding every
outgoing edge previously attached to d, while every other vertex keeps its
edges. -/
theorem claim_c9_add_vertex_discards_edges (g : Graph)
    (hwf : g.vertices.WF) (d : String) (vx : Vertex)
    (hd : HashMap.getItem g.vertices d = some vx) :
    ∃ g2, g.add_vertex d = some g2 ∧
      g2.edges_from d = .ok [] ∧
      ∀ d2, d2 ≠ d → g2.edges_from d2 = g.edges_from d2 := by
  obtain ⟨m2, hm2, hwf2, hlook⟩ :=
    HashMap.setItem_spec g.vertices hwf d ⟨d, []⟩ 0
  refine ⟨⟨m2⟩, ?_, ?_, ?_⟩
  · rw [add_vertex, hm2]
    rfl
  · rw [edges_from]
    show (match HashMap.getItem m2 d with
      | some vx => Except.ok vx.edges
      | none => Except.error PyError.valueError) = _
    rw [hlook d, if_pos rfl]
  · intro d2 hne
    rw [edges_from, edges_from]
    show (match HashMap.getItem m2 d2 with
      | some vx => Except.ok vx.edges
      | none => Except.error PyError.valueError) = _
    rw [hlook d2, if_neg hne]

theorem gW_WF : gW.vertices.WF := by
  refine ⟨by decide, hzero_valid, ?_, by decide, by decide, rfl⟩
  decide

theorem claim_c9_witness :
    ∃ g2, gW.add_vertex "A" = some g2 ∧
      g2.edges_from "A" = .ok [] ∧
      ∀ d2, d2 ≠ "A" → g2.edges_from d2 = gW.edges_from d2 :=
  claim_c9_add_vertex_discards_edges gW gW_WF "A" ⟨"A", [⟨"B", "x", 5⟩]⟩
    (by decide)

end Graph

namespace Graph

/-- C3: starting from an empty graph, add_edge("A","B","x",5.0) followed by
edges_from("A") yields exactly one edge to "B" labelled "x" with weight
5.0, and a second add_edge("A","B","y",7.0) yields two edges from "A"; but
remove_edge("A","B","x") then raises AttributeError instead of succeeding
(contradicting the scenario promised by remove_edge's own docstring): the
vertex scan iterates the keys of the vertex map, which are the vertex-data
strings, and immediately reads the nonexistent attribute .data off the
first of them.  The hash function of the backing map is a parameter
because Python string hashing is per-process randomised. -/
theorem claim_c3_add_remove_edge (h : String → ℕ → ℕ)
    (hv : ∀ s c, 0 < c → h s c < c) :
    ∃ g1 g2,
      (emptyGraph h).add_edge "A" "B" "x" 5 = some g1 ∧
      g1.edges_from "A" = .ok [⟨"B", "x", 5⟩] ∧
      g1.add_edge "A" "B" "y" 7 = some g2 ∧
      g2.edges_from "A" = .ok [⟨"B", "x", 5⟩, ⟨"B", "y", 7⟩] ∧
      g2.remove_edge "A" "B" "x" = .error .attributeError := by
  have hwf0 : (HashMap.mkTable 7 h : HashMap String Vertex).WF :=
    HashMap.mkTable_WF 7 (by norm_num) h hv
  obtain ⟨m1, hm1, hwf1, hlook1⟩ :=
    HashMap.setItem_spec (HashMap.mkTable 7 h) hwf0 "A" ⟨"A", []⟩ 0
  obtain ⟨m2, hm2, hwf2, hlook2⟩ :=
    HashMap.setItem_spec m1 hwf1 "B" ⟨"B", []⟩ 0
  simp only [Nat.zero_add] at hm1 hm2
  have hA2 : m2.getItem "A" = some ⟨"A", []⟩ := by
    rw [hlook2, if_neg (by decide), hlook1, if_pos rfl]
  have hB2 : m2.getItem "B" = some ⟨"B", []⟩ := by
    rw [hlook2, if_pos rfl]
  have hc1 : HashMap.containsKey (HashMap.mkTable 7 h :
      HashMap String Vertex) "A" = false := by
    rw [HashMap.containsKey_eq_isSome, HashMap.getItem_mkTable]
    rfl
  have hc2 : HashMap.containsKey m1 "B" = false := by
    rw [HashMap.containsKey_eq_isSome, hlook1, if_neg (by decide),
      HashMap.getItem_mkTable]
    rfl
  have hA1 : (HashMap.updateValueAt m2 "A" (fun vx =>
      { vx with edges := vx.edges ++ [⟨"B", "x", 5⟩] })).getItem "A"
      = some ⟨"A", [⟨"B", "x", 5⟩]⟩ := by
    rw [HashMap.getItem_updateValueAt m2 hwf2 "A" "A" _, if_pos rfl, hA2]
    rfl
  have hB1 : (HashMap.updateValueAt m2 "A" (fun vx =>
      { vx with edges := vx.edges ++ [⟨"B", "x", 5⟩] })).getItem "B"
      = some ⟨"B", []⟩ := by
    rw [HashMap.getItem_updateValueAt m2 hwf2 "A" "B" _, if_neg (by decide),
      hB2]
  have hwfg1 := HashMap.updateValueAt_WF m2 hwf2 "A" (fun vx =>
    { vx with edges := vx.edges ++ [⟨"B", "x", 5⟩] })
  have hwfg2 := HashMap.updateValueAt_WF _ hwfg1 "A" (fun vx =>
    { vx with edges := vx.edges ++ [⟨"B", "y", 7⟩] })
  have hcg1A : HashMap.containsKey (HashMap.updateValueAt m2 "A" (fun vx =>
      { vx with edges := vx.edges ++ [⟨"B", "x", 5⟩] })) "A" = true := by
    rw [HashMap.containsKey_eq_isSome, hA1]
    rfl
  have hcg1B : HashMap.containsKey (HashMap.updateValueAt m2 "A" (fun vx =>
      { vx with edges := vx.edges ++ [⟨"B", "x", 5⟩] })) "B" = true := by
    rw [HashMap.containsKey_eq_isSome, hB1]
    rfl
  have hA2fin : (HashMap.updateValueAt
      (HashMap.updateValueAt m2 "A" (fun vx =>
        { vx with edges := vx.edges ++ [⟨"B", "x", 5⟩] }))
      "A" (fun vx => { vx with edges := vx.edges ++ [⟨"B", "y", 7⟩] })
      ).getItem "A"
      = some ⟨"A", [⟨"B", "x", 5⟩, ⟨"B", "y", 7⟩]⟩ := by
    rw [HashMap.getItem_updateValueAt _ hwfg1 "A" "A" _, if_pos rfl, hA1]
    rfl
  refine ⟨⟨HashMap.updateValueAt m2 "A" (fun vx =>
      { vx with edges := vx.edges ++ [⟨"B", "x", 5⟩] })⟩,
    ⟨HashMap.updateValueAt
      (HashMap.updateValueAt m2 "A" (fun vx =>
        { vx with edges := vx.edges ++ [⟨"B", "x", 5⟩] }))
      "A" (fun vx => { vx with edges := vx.edges ++ [⟨"B", "y", 7⟩] })⟩,
    ?_, ?_, ?_, ?_, ?_⟩
  · rw [add_edge]
    rw [show (emptyGraph h).vertices = HashMap.mkTable 7 h from rfl]
    rw [hc1]
    rw [if_neg Bool.false_ne_true, hm1]
    simp only [Option.bind_eq_bind, Option.some_bind]
    rw [hc2, if_neg Bool.false_ne_true, hm2]
    simp only [Option.bind_eq_bind, Option.some_bind]
  · rw [edges_from]
    rw [hA1]
  · rw [add_edge]
    dsimp only
    rw [hcg1A, if_pos rfl]
    simp only [Option.bind_eq_bind, Option.some_bind]
    rw [hcg1B, if_pos rfl]
  · rw [edges_from]
    rw [hA2fin]
  · have hmem := (HashMap.getItem_eq_some_iff _ hwfg2 "A" _).mp hA2fin
    refine remove_edge_attributeError _ ?_ "A" "B" "x"
    intro hempty
    have hmk : "A" ∈ HashMap.keys (HashMap.updateValueAt
        (HashMap.updateValueAt m2 "A" (fun vx =>
          { vx with edges := vx.edges ++ [⟨"B", "x", 5⟩] }))
        "A" (fun vx => { vx with edges := vx.edges ++ [⟨"B", "y", 7⟩] })) :=
      List.mem_map_of_mem Prod.fst hmem
    rw [show HashMap.keys (HashMap.updateValueAt
        (HashMap.updateValueAt m2 "A" (fun vx =>
          { vx with edges := vx.edges ++ [⟨"B", "x", 5⟩] }))
        "A" (fun vx => { vx with edges := vx.edges ++ [⟨"B", "y", 7⟩] }))
      = HashMap.keys (⟨HashMap.updateValueAt
        (HashMap.updateValueAt m2 "A" (fun vx =>
          { vx with edges := vx.edges ++ [⟨"B", "x", 5⟩] }))
        "A" (fun vx => { vx with edges := vx.edges ++ [⟨"B", "y", 7⟩] })⟩
          : Graph).vertices from rfl, hempty] at hmk
    simp at hmk

theorem claim_c3_witness :
    ∃ g1 g2,
      (emptyGraph hzero).add_edge "A" "B" "x" 5 = some g1 ∧
      g1.edges_from "A" = .ok [⟨"B", "x", 5⟩] ∧
      g1.add_edge "A" "B" "y" 7 = some g2 ∧
      g2.edges_from "A" = .ok [⟨"B", "x", 5⟩, ⟨"B", "y", 7⟩] ∧
      g2.remove_edge "A" "B" "x" = .error .attributeError :=
  claim_c3_add_remove_edge hzero (fun _ _ hc => hc)

end Graph

section DijkstraTheorems

variable {V : Type} [DecidableEq V]

theorem dijkstra_three_aux : ∀ a b c : V3, ([a, b, c] : List V3).Nodup →
    run [a, b, c] adj3 V3.A V3.C
      = some (Outcome.route [V3.A, V3.B, V3.C] 3) := by
  decide

/-- C1: for the graph with vertices A, B, C and directed edges A to B of
weight 1, B to C of weight 2, A to C of weight 10, the engine run from A to
C yields the route [A, B, C] with total distance 3, not the direct
10-weight edge.  The working array is any duplicate-free enumeration of the
three vertices, since its order comes from iterating the airports HashMap
and is hash-dependent. -/
theorem claim_c1_shortest_route (vs : List V3) (hnd : vs.Nodup)
    (hall : ∀ v : V3, v ∈ vs) :
    run vs adj3 V3.A V3.C = some (Outcome.route [V3.A, V3.B, V3.C] 3) := by
  rcases vs with _ | ⟨a, _ | ⟨b, _ | ⟨c, _ | ⟨d, t⟩⟩⟩⟩
  · simpa using hall V3.A
  · have h1 := hall V3.A
    have h2 := hall V3.B
    simp only [List.mem_singleton] at h1 h2
    exact absurd (h1.trans h2.symm) (by decide)
  · have h1 := hall V3.A
    have h2 := hall V3.B
    have h3 := hall V3.C
    fin_cases a <;> fin_cases b <;> simp_all
  · exact dijkstra_three_aux a b c hnd
  · have hle := hnd.length_le_card
    have hcard : Fintype.card V3 = 3 := rfl
    rw [hcard] at hle
    simp only [List.length_cons] at hle
    omega

theorem claim_c1_witness :
    run [V3.A, V3.B, V3.C] adj3 V3.A V3.C
      = some (Outcome.route [V3.A, V3.B, V3.C] 3) :=
  claim_c1_shortest_route [V3.A, V3.B, V3.C] (by decide) (by decide)

/-- Invariant of the relaxation state: every vertex whose distance is not
the -1 sentinel, and every vertex with a predecessor link, is reachable
from the origin. -/
def ReachInv (adj : V → List (V × ℚ)) (origin : V)
    (st : (V → ℚ) × (V → Option V)) : Prop :=
  (∀ v, st.1 v ≠ -1 → Reaches adj origin v) ∧
  (∀ v u, st.2 v = some u → Reaches adj origin v)

theorem minimum_distance_vertex_aux (dist : V → ℚ) :
    ∀ (ws : List V) (acc : Option V) (u : V),
      ws.foldl (fun acc v =>
        if dist v > -1 then
          match acc with
          | none => some v
          | some m => if dist v < dist m then some v else acc
        else acc) acc = some u →
      acc = some u ∨ (u ∈ ws ∧ dist u > -1) := by
  intro ws
  induction ws with
  | nil => exact fun acc u h => Or.inl h
  | cons v ws ih =>
    intro acc u h
    rw [List.foldl_cons] at h
    rcases ih _ u h with hstep | hmem
    · by_cases hdv : dist v > -1
      · rw [if_pos hdv] at hstep
        rcases acc with _ | m
        · right
          simp only [Option.some.injEq] at hstep
          exact ⟨hstep ▸ List.mem_cons_self v ws, hstep ▸ hdv⟩
        · dsimp only at hstep
          by_cases hlt : dist v < dist m
          · rw [if_pos hlt] at hstep
            simp only [Option.some.injEq] at hstep
            exact Or.inr ⟨hstep ▸ List.mem_cons_self v ws, hstep ▸ hdv⟩
          · rw [if_neg hlt] at hstep
            exact Or.inl hstep
      · rw [if_neg hdv] at hstep
        exact Or.inl hstep
    · exact Or.inr ⟨List.mem_cons_of_mem v hmem.1, hmem.2⟩

theorem minimum_distance_vertex_spec (dist : V → ℚ) (ws : List V) (u : V)
    (h : minimum_distance_vertex dist ws = some u) :
    u ∈ ws ∧ dist u > -1 := by
  rcases minimum_distance_vertex_aux dist ws none u h with habs | hok
  · cases habs
  · exact hok

theorem relax_routes_inv (adj : V → List (V × ℚ)) (origin u : V)
    (hu : Reaches adj origin u) :
    ∀ (es : List (V × ℚ)), (∀ e ∈ es, e ∈ adj u) →
    ∀ st, ReachInv adj origin st →
      ReachInv adj origin (es.foldl (fun st e =>
        if st.1 e.1 = -1 ∨ st.1 u + e.2 < st.1 e.1 then
          (fun v => if v = e.1 then st.1 u + e.2 else st.1 v,
           fun v => if v = e.1 then some u else st.2 v)
        else st) st) := by
  intro es
  induction es with
  | nil => exact fun _ st hst => hst
  | cons e es ih =>
    intro hsub st hst
    rw [List.foldl_cons]
    refine ih (fun e2 he2 => hsub e2 (List.mem_cons_of_mem e he2)) _ ?_
    by_cases hrel : st.1 e.1 = -1 ∨ st.1 u + e.2 < st.1 e.1
    · rw [if_pos hrel]
      have hre : Reaches adj origin e.1 :=
        Reaches.step hu (hsub e (List.mem_cons_self e es))
      constructor
      · intro v hv
        by_cases hve : v = e.1
        · exact hve ▸ hre
        · simp only [if_neg hve] at hv
          exact hst.1 v hv
      · intro v w hv
        by_cases hve : v = e.1
        · exact hve ▸ hre
        · simp only [if_neg hve] at hv
          exact hst.2 v w hv
    · rw [if_neg hrel]
      exact hst

theorem dijkstra_loop_inv (adj : V → List (V × ℚ)) (origin : V) :
    ∀ (fuel : ℕ) (ws : List V) (st : (V → ℚ) × (V → Option V)),
      ReachInv adj origin st →
      ReachInv adj origin (dijkstra_loop adj fuel ws st) := by
  intro fuel
  induction fuel with
  | zero => exact fun ws st hst => hst
  | succ fuel ih =>
    intro ws st hst
    rw [dijkstra_loop]
    by_cases hem : ws.isEmpty
    · rw [if_pos hem]
      exact hst
    · rw [if_neg hem]
      rcases hmin : minimum_distance_vertex st.1 ws with _ | u
      · exact hst
      · have hspec := minimum_distance_vertex_spec st.1 ws u hmin
        have hu : Reaches adj origin u := hst.1 u (by
          intro heq
          rw [heq] at hspec
          exact absurd hspec.2 (by norm_num))
        refine ih (ws.erase u) _ ?_
        have := relax_routes_inv adj origin u hu (adj u) (fun _ he => he)
          st hst
        rw [relax_routes]
        exact this

theorem find_shortest_paths_inv (verts : List V)
    (adj : V → List (V × ℚ)) (origin : V) :
    ReachInv adj origin (find_shortest_paths verts adj origin) := by
  rw [find_shortest_paths]
  refine dijkstra_loop_inv adj origin verts.length verts _ ⟨?_, ?_⟩
  · intro v hv
    by_cases hvo : v = origin
    · exact hvo ▸ Reaches.refl
    · simp only [if_neg hvo] at hv
      exact absurd rfl hv
  · intro v u hv
    cases hv

theorem dijkstra_loop_nil (adj : V → List (V × ℚ))
    (st : (V → ℚ) × (V → Option V)) :
    ∀ fuel, dijkstra_loop adj fuel ([] : List V) st = st := by
  intro fuel
  cases fuel with
  | zero => rfl
  | succ f =>
    rw [dijkstra_loop]
    simp

/-- Fuel irrelevance for the working-set loop: the source loop runs until
the working array empties or no eligible vertex remains, and every
non-breaking iteration removes the selected vertex; any fuel at least the
working-array length therefore computes the same final state, so using the
initial length as fuel is faithful to the unbounded while loop. -/
theorem dijkstra_loop_fuel_irrelevant (adj : V → List (V × ℚ)) :
    ∀ (f1 : ℕ) (ws : List V) (st : (V → ℚ) × (V → Option V)) (f2 : ℕ),
      ws.length ≤ f1 → ws.length ≤ f2 →
      dijkstra_loop adj f1 ws st = dijkstra_loop adj f2 ws st := by
  intro f1
  induction f1 with
  | zero =>
    intro ws st f2 h1 h2
    have hnil : ws = [] := List.eq_nil_of_length_eq_zero (by omega)
    subst hnil
    rw [dijkstra_loop_nil adj st, dijkstra_loop_nil adj st]
  | succ f1 ih =>
    intro ws st f2 h1 h2
    rcases ws with _ | ⟨v, vs⟩
    · rw [dijkstra_loop_nil adj st, dijkstra_loop_nil adj st]
    · rcases f2 with _ | f2
      · simp at h2
      · rw [dijkstra_loop, dijkstra_loop, if_neg (by simp),
          if_neg (by simp)]
        rcases hmin : minimum_distance_vertex st.1 (v :: vs) with _ | u
        · rfl
        · have hmem := (minimum_distance_vertex_spec st.1 _ u hmin).1
          have hlen : ((v :: vs).erase u).length = vs.length := by
            rw [List.length_erase_of_mem hmem]
            simp
          simp only [List.length_cons] at h1 h2
          exact ih _ _ f2 (by omega) (by omega)

/-- C4: for every graph containing vertices A and B with no path from A to
B, running the engine from A to B reports no route as a normal terminal
outcome: the predecessor of B is still None when reconstruction starts, so
the loop pushes B, sees the None link and reports the absence of a complete
route; no exception is raised (in the model, no error value arises) and no
partial path is returned. -/
theorem claim_c4_unreachable_no_route (verts : List V)
    (adj : V → List (V × ℚ)) (A B : V) (hA : A ∈ verts) (hB : B ∈ verts)
    (hnr : ¬ Reaches adj A B) :
    run verts adj A B = some Outcome.noRoute := by
  have hinv := find_shortest_paths_inv verts adj A
  have hpredB : (find_shortest_paths verts adj A).2 B = none := by
    rcases hp : (find_shortest_paths verts adj A).2 B with _ | u
    · rfl
    · exact absurd (hinv.2 B u hp) hnr
  have hBA : ¬ B = A := by
    intro heq
    exact hnr (heq ▸ Reaches.refl)
  obtain ⟨n, hlen⟩ : ∃ n, verts.length = n + 1 := by
    cases verts with
    | nil => simp at hA
    | cons v vs => exact ⟨vs.length, rfl⟩
  rw [run, hlen, reconstruct_route, if_neg hBA, hpredB]

theorem claim_c4_witness :
    run [V3.A, V3.B] adjNone V3.A V3.B = some Outcome.noRoute :=
  claim_c4_unreachable_no_route [V3.A, V3.B] adjNone V3.A V3.B
    (by decide) (by decide)
    (by
      intro h
      cases h with
      | step hr he => simp [adjNone] at he)

end DijkstraTheorems

end DS
